import Mathlib

/-!
Verification of the Heston Fourier pricing data generator (`fourier.py`) and
the chunked CSV filter (`filter.py`).

The numerical Python code is shallowly embedded over the exact reals and
complexes of Mathlib.  Python's mixed real/complex arithmetic is embedded
entirely in `ℂ`: the embedding `ℝ ↪ ℂ` commutes with every operation used
(including `x / 0 = 0`, the convention shared by Lean's real and complex
fields).  `np.sqrt` and `np.log` on complex arguments are the principal
branch, which is `Complex.cpow _ (1/2)` and `Complex.log` respectively.

A second, non-finiteness-tracking semantics (`EC`, an `Option ℂ`) is used
for the claims about NaN/Inf behaviour of the numpy code: there, division
by zero and every arithmetic operation on a non-finite value produce the
non-finite value `none`, matching numpy's NaN propagation on the
expressions that occur in this program.
-/

open scoped Classical

/-- Principal complex square root, as computed by `np.sqrt` on complex
arguments: `0 ^ (1/2) = 0` and otherwise `exp ((1/2) * log z)` with the
principal logarithm. -/
noncomputable def csqrt (z : ℂ) : ℂ := z ^ ((1 : ℂ) / 2)

/-- Embedding of `heston_char_function` (src/fourier.py, lines 8–25).
The let-bound names `i`, `a`, `u`, `d`, `g`, `C`, `D` mirror the Python
locals; the reassignment `u = u - i` is the frequency shift. -/
noncomputable def heston_char_function (u t S0 r kappa theta sigma rho v0 : ℝ) : ℂ :=
  let i : ℂ := Complex.I
  let a : ℂ := (kappa : ℂ) * (theta : ℂ)
  let u' : ℂ := (u : ℂ) - i
  let d : ℂ := csqrt (((rho : ℂ) * sigma * i * u' - kappa) ^ 2 + (sigma : ℂ) ^ 2 * (i * u' + u' ^ 2))
  let g : ℂ := ((kappa : ℂ) - rho * sigma * i * u' - d) / ((kappa : ℂ) - rho * sigma * i * u' + d)
  let C : ℂ := (r : ℂ) * i * u' * t + (a / (sigma : ℂ) ^ 2) *
    (((kappa : ℂ) - rho * sigma * i * u' - d) * t -
      2 * Complex.log ((1 - g * Complex.exp (-d * t)) / (1 - g)))
  let D : ℂ := (((kappa : ℂ) - rho * sigma * i * u' - d) / (sigma : ℂ) ^ 2) *
    (1 - Complex.exp (-d * t)) / (1 - g * Complex.exp (-d * t))
  Complex.exp (C + D * v0 + i * u' * (Real.log S0 : ℂ))

/-- Embedding of `heston_integrand` (src/fourier.py, lines 27–34).
`np.log(K)` is the real logarithm of the real strike. -/
noncomputable def heston_integrand (u S0 K t r kappa theta sigma rho v0 : ℝ) : ℝ :=
  let phi := heston_char_function u t S0 r kappa theta sigma rho v0
  let numerator := Complex.exp (-Complex.I * u * (Real.log K : ℂ)) * phi
  (numerator / (Complex.I * u)).re

/-- Result of one `scipy.integrate.quad` call: the returned estimate and
error bound, together with the QUADPACK convergence status (`ier = 0`).
scipy returns only `(value, abserr)` to the Python caller; non-convergence
is signalled out-of-band by an `IntegrationWarning`, which the program
neither catches nor checks. -/
structure QuadResult where
  value : ℝ
  abserr : ℝ
  converged : Bool

/-- Shape of `scipy.integrate.quad` as used by the program:
arguments are the integrand, the endpoints `a` and `b`, the subdivision
limit, `epsabs` and `epsrel`. -/
abbrev QuadRoutine : Type := (ℝ → ℝ) → ℝ → ℝ → ℕ → ℝ → ℝ → QuadResult

/-- Embedding of `heston_call_price` (src/fourier.py, lines 36–44),
parameterised by the external quadrature routine.  The code destructures
only `(integral, error)` from `quad` and uses the estimate unconditionally. -/
noncomputable def heston_call_price (quad : QuadRoutine) (S0 K t r kappa theta sigma rho v0 : ℝ) : ℝ :=
  let integrand : ℝ → ℝ := fun u => heston_integrand u S0 K t r kappa theta sigma rho v0
  let res := quad integrand 0 100 100 (1e-8) (1e-8)
  S0 * 0.5 + (1 / Real.pi) * res.value

/-- Spec-side definition: the shifted frequency `u - i` of §4.1. -/
noncomputable def u_shift (u : ℝ) : ℂ := (u : ℂ) - Complex.I

/-- Spec-side definition: `d = sqrt((ρσiu' − κ)² + σ²(iu' + u'²))` with the
principal complex square root. -/
noncomputable def d_spec (kappa sigma rho : ℝ) (u' : ℂ) : ℂ :=
  csqrt (((rho : ℂ) * sigma * Complex.I * u' - kappa) ^ 2 +
    (sigma : ℂ) ^ 2 * (Complex.I * u' + u' ^ 2))

/-- Spec-side definition: `g = (κ − ρσiu' − d) / (κ − ρσiu' + d)`. -/
noncomputable def g_spec (kappa sigma rho : ℝ) (u' d : ℂ) : ℂ :=
  ((kappa : ℂ) - rho * sigma * Complex.I * u' - d) /
    ((kappa : ℂ) - rho * sigma * Complex.I * u' + d)

/-- Spec-side definition: the drift/log exponent term `C`, containing the
principal-branch term `log((1 − g e^{−dt})/(1 − g))`. -/
noncomputable def C_spec (t r kappa theta sigma rho : ℝ) (u' d g : ℂ) : ℂ :=
  (r : ℂ) * Complex.I * u' * t + ((kappa : ℂ) * theta / (sigma : ℂ) ^ 2) *
    (((kappa : ℂ) - rho * sigma * Complex.I * u' - d) * t -
      2 * Complex.log ((1 - g * Complex.exp (-d * t)) / (1 - g)))

/-- Spec-side definition: the variance-loading exponent term `D`. -/
noncomputable def D_spec (t kappa sigma rho : ℝ) (u' d g : ℂ) : ℂ :=
  (((kappa : ℂ) - rho * sigma * Complex.I * u' - d) / (sigma : ℂ) ^ 2) *
    (1 - Complex.exp (-d * t)) / (1 - g * Complex.exp (-d * t))

/-- Spec-side definition of the whole characteristic function, assembled
exactly as §4.1 of the spec describes: shift the frequency, compute `d`,
`g`, `C`, `D`, and return `exp(C + D·v0 + i·u'·ln S0)`. -/
noncomputable def phi_spec (u t S0 r kappa theta sigma rho v0 : ℝ) : ℂ :=
  let u' := u_shift u
  let d := d_spec kappa sigma rho u'
  let g := g_spec kappa sigma rho u' d
  Complex.exp (C_spec t r kappa theta sigma rho u' d g +
    D_spec t kappa sigma rho u' d g * v0 + Complex.I * u' * (Real.log S0 : ℂ))

/-- Spec-side definition of the pricing integrand of §4.2: the real part of
`(e^{−iu ln K} · φ(u)) / (iu)`, with the complex principal logarithm of the
strike. -/
noncomputable def integrand_spec (u S0 K t r kappa theta sigma rho v0 : ℝ) : ℝ :=
  ((Complex.exp (-Complex.I * u * Complex.log (K : ℂ)) *
    heston_char_function u t S0 r kappa theta sigma rho v0) / (Complex.I * u)).re

/-- A pricing parameter record, as passed to `heston_call_price` inside
`main` (src/fourier.py, line 103). -/
structure MarketParams where
  S0 : ℝ
  K : ℝ
  t : ℝ
  r : ℝ
  kappa : ℝ
  theta : ℝ
  sigma : ℝ
  rho : ℝ
  v0 : ℝ

/-- The price `main` computes for one parameter record. -/
noncomputable def priceOf (quad : QuadRoutine) (p : MarketParams) : ℝ :=
  heston_call_price quad p.S0 p.K p.t p.r p.kappa p.theta p.sigma p.rho p.v0

/-- The sequence of prices the `main` loop (src/fourier.py, lines 98–103)
computes for a batch of parameter records, in batch order. -/
noncomputable def batchPrices (quad : QuadRoutine) (samples : List MarketParams) : List ℝ :=
  samples.map (priceOf quad)

/-- A quadrature routine that reports non-convergence (`converged = false`,
QUADPACK `ier ≠ 0`): it returns the estimate `0` with error bound `1`
after exhausting its subdivision budget. -/
noncomputable def quadNonconvergent : QuadRoutine := fun _ _ _ _ _ _ => ⟨0, 1, false⟩

/-- The same estimate and error bound, but reported as converged. -/
noncomputable def quadConvergent : QuadRoutine := fun _ _ _ _ _ _ => ⟨0, 1, true⟩

/-- A Python float: a finite real, an infinity, or NaN. -/
inductive PyFloat where
  | fin (x : ℝ)
  | pinf
  | ninf
  | nan

/-- IEEE-754 `<` on Python floats: NaN is incomparable to everything,
`-inf < x < +inf` for finite `x`, and finite floats compare as reals. -/
def PyFloat.lt : PyFloat → PyFloat → Prop
  | .fin a, .fin b => a < b
  | .fin _, .pinf => True
  | .ninf, .fin _ => True
  | .ninf, .pinf => True
  | _, _ => False

/-- The validity filter of `main` (src/fourier.py, line 106): the chained
comparison `0.0 < price < 0.66`. -/
def accept (p : PyFloat) : Prop :=
  PyFloat.lt (PyFloat.fin 0.0) p ∧ PyFloat.lt p (PyFloat.fin 0.66)

/-- The rows `main` appends to `result_data` (src/fourier.py, lines
98–107): each sample is priced, and the row is kept exactly when the
chained comparison accepts the price; rejected samples are skipped and the
loop continues with the next sample. -/
noncomputable def mainResultData {α : Type} (samples : List (α × PyFloat)) : List (α × PyFloat) :=
  samples.filter fun s => decide (accept s.2)

/-- Modelled from the spec: `scipy.integrate.quad` (external to the
repository) is adaptive Gauss–Kronrod quadrature over `(0, 100)`; on each
subinterval `[a, b]` of `[0, 100]` it evaluates the integrand at the
affine transplants of canonical Gauss–Kronrod nodes `ξ`, all of which lie
strictly inside `(-1, 1)`, so no endpoint of a subinterval is ever a
node. -/
noncomputable def quad_node (a b ξ : ℝ) : ℝ := (a + b) / 2 + (b - a) / 2 * ξ

/-- Lower endpoints of the eight parameter ranges of
`generate_lhs_samples` (src/fourier.py, lines 54–61), in column order
`m, tau, r, rho, kappa, theta, sigma, v0`. -/
noncomputable def lhsMin : Fin 8 → ℝ := ![0.6, 0.1, 0.0, -0.95, 0.0, 0.0, 0.0, 0.05]

/-- Upper endpoints of the eight parameter ranges of
`generate_lhs_samples` (src/fourier.py, lines 54–61). -/
noncomputable def lhsMax : Fin 8 → ℝ := ![1.4, 1.4, 0.10, 0.0, 2.0, 0.5, 0.5, 0.5]

/-- Embedding of the scaling part of `generate_lhs_samples`
(src/fourier.py, lines 63–73): the external LHS draw is the argument, and
each coordinate is rescaled by `min + draw * (max - min)`.  The row count
is preserved by `column_stack`. -/
noncomputable def generate_lhs_samples (lhs_samples : List (Fin 8 → ℝ)) : List (Fin 8 → ℝ) :=
  lhs_samples.map fun row j => lhsMin j + row j * (lhsMax j - lhsMin j)

/-- Non-finiteness-tracking numpy scalar: `some z` is a finite complex
value, `none` is a value with a NaN or infinite component.  On the
expressions occurring in this program numpy propagates non-finiteness
through every arithmetic operation, so `none` is absorbing. -/
abbrev EC : Type := Option ℂ

/-- numpy addition; any non-finite operand gives a non-finite result. -/
def EC.add : EC → EC → EC
  | some a, some b => some (a + b)
  | _, _ => none

/-- numpy subtraction. -/
def EC.sub : EC → EC → EC
  | some a, some b => some (a - b)
  | _, _ => none

/-- numpy multiplication (`inf * 0 = nan`, so non-finite is absorbing). -/
def EC.mul : EC → EC → EC
  | some a, some b => some (a * b)
  | _, _ => none

/-- numpy negation. -/
def EC.neg : EC → EC
  | some a => some (-a)
  | none => none

/-- numpy division: division by `0` yields `±inf` or `nan`, hence
non-finite. -/
noncomputable def EC.div : EC → EC → EC
  | some a, some b => if b = 0 then none else some (a / b)
  | _, _ => none

/-- numpy `**2`. -/
def EC.sq (x : EC) : EC := EC.mul x x

/-- numpy complex exponential of a value with a NaN component is NaN. -/
noncomputable def EC.exp : EC → EC
  | some a => some (Complex.exp a)
  | none => none

/-- numpy principal complex logarithm: `log 0 = -inf`, non-finite. -/
noncomputable def EC.clog : EC → EC
  | some a => if a = 0 then none else some (Complex.log a)
  | none => none

/-- numpy principal complex square root of a finite value is finite. -/
noncomputable def EC.csqrtE : EC → EC
  | some a => some (csqrt a)
  | none => none

/-- numpy real logarithm of a real float: `-inf` at `0`, NaN below. -/
noncomputable def EC.rlog (x : ℝ) : EC :=
  if x ≤ 0 then none else some ((Real.log x : ℝ) : ℂ)

/-- A finite real as an `EC` scalar. -/
def EC.ofR (x : ℝ) : EC := some ((x : ℝ) : ℂ)

instance : Add EC := ⟨EC.add⟩

instance : Sub EC := ⟨EC.sub⟩

instance : Mul EC := ⟨EC.mul⟩

instance : Neg EC := ⟨EC.neg⟩

/-- Embedding of `heston_char_function` (src/fourier.py, lines 8–25) in the
non-finiteness-tracking semantics: identical formula structure to
`heston_char_function`, with every operation replaced by its `EC`
counterpart (`**2` written via `EC.sq`). -/
noncomputable def heston_char_functionN (u t S0 r kappa theta sigma rho v0 : ℝ) : EC :=
  let i : EC := some Complex.I
  let a : EC := EC.ofR kappa * EC.ofR theta
  let u' : EC := EC.ofR u - i
  let d : EC := EC.csqrtE (EC.sq (EC.ofR rho * EC.ofR sigma * i * u' - EC.ofR kappa) +
    EC.sq (EC.ofR sigma) * (i * u' + EC.sq u'))
  let g : EC := EC.div (EC.ofR kappa - EC.ofR rho * EC.ofR sigma * i * u' - d)
    (EC.ofR kappa - EC.ofR rho * EC.ofR sigma * i * u' + d)
  let C : EC := EC.ofR r * i * u' * EC.ofR t + EC.div a (EC.sq (EC.ofR sigma)) *
    ((EC.ofR kappa - EC.ofR rho * EC.ofR sigma * i * u' - d) * EC.ofR t -
      EC.ofR 2 * EC.clog (EC.div (EC.ofR 1 - g * EC.exp (-d * EC.ofR t))
        (EC.ofR 1 - g)))
  let D : EC := EC.div (EC.div (EC.ofR kappa - EC.ofR rho * EC.ofR sigma * i * u' - d)
      (EC.sq (EC.ofR sigma)) * (EC.ofR 1 - EC.exp (-d * EC.ofR t)))
    (EC.ofR 1 - g * EC.exp (-d * EC.ofR t))
  EC.exp (C + D * EC.ofR v0 + i * u' * EC.rlog S0)

/-- The real part of an `EC` scalar, as a possibly-non-finite real. -/
def EC.re : EC → Option ℝ
  | some z => some z.re
  | none => none

/-- Embedding of `heston_integrand` (src/fourier.py, lines 27–34) in the
non-finiteness-tracking semantics. -/
noncomputable def heston_integrandN (u S0 K t r kappa theta sigma rho v0 : ℝ) : Option ℝ :=
  let phi := heston_char_functionN u t S0 r kappa theta sigma rho v0
  let numerator := EC.exp (-(some Complex.I) * EC.ofR u * EC.rlog K) * phi
  EC.re (EC.div numerator (some Complex.I * EC.ofR u))

/-- Addition of possibly-non-finite reals. -/
def oadd : Option ℝ → Option ℝ → Option ℝ
  | some a, some b => some (a + b)
  | _, _ => none

/-- Multiplication of possibly-non-finite reals. -/
def omul : Option ℝ → Option ℝ → Option ℝ
  | some a, some b => some (a * b)
  | _, _ => none

/-- Modelled from the spec: the adaptive quadrature of
`scipy.integrate.quad` (external to the repository), abstracted by the
weighted evaluation nodes it uses; its estimate is the weighted sum of
integrand values, and any non-finite integrand value makes the estimate
non-finite (NaN propagates through the QUADPACK sums). -/
noncomputable def quadN (f : ℝ → Option ℝ) (nodes : List (ℝ × ℝ)) : Option ℝ :=
  nodes.foldr (fun wx acc => oadd (omul (some wx.1) (f wx.2)) acc) (some 0)

/-- Embedding of `heston_call_price` (src/fourier.py, lines 36–44) in the
non-finiteness-tracking semantics, with the integrator abstracted by its
weighted nodes. -/
noncomputable def heston_call_priceN (nodes : List (ℝ × ℝ))
    (S0 K t r kappa theta sigma rho v0 : ℝ) : Option ℝ :=
  let integrand := fun u => heston_integrandN u S0 K t r kappa theta sigma rho v0
  let integral := quadN integrand nodes
  oadd (some (S0 * 0.5)) (omul (some (1 / Real.pi)) integral)

/-- One CSV row as read by `filter.py`: the two filtered columns and the
remaining column values. -/
structure CsvRow (α : Type) where
  moneyness : ℝ
  initial_variance : ℝ
  rest : α

/-- The row predicate of `filter.py` (src/filter.py, lines 18–19). -/
def rowPred {α : Type} (row : CsvRow α) : Prop :=
  0.6 < row.moneyness ∧ row.moneyness < 1.4 ∧
    0.05 < row.initial_variance ∧ row.initial_variance < 0.5

/-- The boolean mask applied to one chunk (src/filter.py, lines 18–19). -/
noncomputable def rowKeep {α : Type} (row : CsvRow α) : Bool := decide (rowPred row)

/-- Embedding of `filtered_chunk` (src/filter.py, lines 18–19): the rows of one chunk
passing the mask, in order and unchanged. -/
noncomputable def filtered_chunk {α : Type} (chunk : List (CsvRow α)) : List (CsvRow α) :=
  chunk.filter rowKeep

/-- Embedding of `pd.read_csv(..., chunksize=10000)` (src/filter.py, line 15): the
input rows split into consecutive chunks of (at most) 10000 rows. -/
def chunkList {α : Type} : List α → List (List α)
  | [] => []
  | x :: xs => ((x :: xs).take 10000) :: chunkList ((x :: xs).drop 10000)
termination_by l => l.length
decreasing_by simp [List.length_drop]; omega

/-- The chunk loop of `filter.py` (src/filter.py, lines 15–31): each chunk
is filtered and appended to the output file, and `total_filtered`
accumulates the chunk counts.  Returns (rows written, reported total). -/
noncomputable def filterScript {α : Type} (input : List (CsvRow α)) :
    List (CsvRow α) × ℕ :=
  (chunkList input).foldl
    (fun acc chunk =>
      let fc := filtered_chunk chunk
      (acc.1 ++ fc, acc.2 + fc.length))
    ([], 0)

/-- Claim C1: the characteristic function shifts `u` to `u − i`, computes
`d`, `g`, `C`, `D` as in the spec, and returns `exp(C + D·v0 + i·u'·ln S0)`. -/
theorem char_function_matches_spec (u t S0 r kappa theta sigma rho v0 : ℝ)
    (hsigma : 0 < sigma) :
    heston_char_function u t S0 r kappa theta sigma rho v0 =
      phi_spec u t S0 r kappa theta sigma rho v0 := rfl

/-- Witness for C1 at a concrete parameter record with `sigma = 1 > 0`. -/
theorem char_function_matches_spec_witness :
    heston_char_function 0 1 1 0 1 0 1 0 0 = phi_spec 0 1 1 0 1 0 1 0 0 :=
  char_function_matches_spec 0 1 1 0 1 0 1 0 0 one_pos

/-- Claim C4: for a nonzero frequency and positive strike, the integrand is
the real part of `(e^{−iu ln K} · φ(u)) / (iu)`. -/
theorem integrand_matches_spec (u S0 K t r kappa theta sigma rho v0 : ℝ)
    (hu : u ≠ 0) (hK : 0 < K) :
    heston_integrand u S0 K t r kappa theta sigma rho v0 =
      integrand_spec u S0 K t r kappa theta sigma rho v0 := by
  unfold heston_integrand integrand_spec
  rw [Complex.ofReal_log hK.le]

/-- Witness for C4 at `u = 1`, `K = 1`. -/
theorem integrand_matches_spec_witness :
    heston_integrand 1 1 1 1 0 1 0 1 0 0 = integrand_spec 1 1 1 1 0 1 0 1 0 0 :=
  integrand_matches_spec 1 1 1 1 0 1 0 1 0 0 one_ne_zero one_pos

/-- Claim C2: for every quadrature routine, the call price is obtained by
integrating the Heston integrand over `(0, 100)` with `limit = 100`,
`epsabs = 1e-8`, `epsrel = 1e-8`, and combining as
`0.5·S0 + (1/π)·integral`. -/
theorem call_price_quadrature_spec (quad : QuadRoutine)
    (S0 K t r kappa theta sigma rho v0 : ℝ) :
    heston_call_price quad S0 K t r kappa theta sigma rho v0 =
      0.5 * S0 + (1 / Real.pi) *
        (quad (fun u => heston_integrand u S0 K t r kappa theta sigma rho v0)
          0 100 100 (1e-8) (1e-8)).value := by
  unfold heston_call_price
  ring

@[simp] lemma EC.none_add (y : EC) : (none : EC) + y = none := rfl

@[simp] lemma EC.add_none (x : EC) : x + (none : EC) = none := by cases x <;> rfl

@[simp] lemma EC.none_sub (y : EC) : (none : EC) - y = none := rfl

@[simp] lemma EC.sub_none (x : EC) : x - (none : EC) = none := by cases x <;> rfl

@[simp] lemma EC.none_mul (y : EC) : (none : EC) * y = none := rfl

@[simp] lemma EC.mul_none (x : EC) : x * (none : EC) = none := by cases x <;> rfl

@[simp] lemma EC.exp_none : EC.exp none = none := rfl

@[simp] lemma EC.re_none : EC.re none = none := rfl

@[simp] lemma EC.div_none_left (y : EC) : EC.div none y = none := rfl

@[simp] lemma EC.div_some_zero (x : EC) : EC.div x (some 0) = none := by
  cases x <;> simp [EC.div]

@[simp] lemma EC.sq_ofR_zero : EC.sq (EC.ofR 0) = some 0 := by
  simp [EC.sq, EC.ofR, EC.mul]

@[simp] lemma oadd_none (x : Option ℝ) : oadd x none = none := by cases x <;> rfl

@[simp] lemma none_oadd (y : Option ℝ) : oadd none y = none := rfl

@[simp] lemma omul_none (x : Option ℝ) : omul x none = none := by cases x <;> rfl

/-- With `sigma = 0` the characteristic function divides `kappa * theta`
by `sigma ** 2 = 0`, so its value is non-finite for every frequency. -/
lemma charN_sigma_zero (u t S0 r kappa theta rho v0 : ℝ) :
    heston_char_functionN u t S0 r kappa theta 0 rho v0 = none := by
  simp [heston_char_functionN]

/-- With `sigma = 0` the integrand is non-finite at every frequency. -/
lemma integrandN_sigma_zero (u S0 K t r kappa theta rho v0 : ℝ) :
    heston_integrandN u S0 K t r kappa theta 0 rho v0 = none := by
  simp [heston_integrandN, charN_sigma_zero]

/-- With `sigma = 0` the price is non-finite as soon as the integrator
evaluates the integrand at least once. -/
lemma priceN_sigma_zero (S0 K t r kappa theta rho v0 : ℝ) (wx : ℝ × ℝ)
    (rest : List (ℝ × ℝ)) :
    heston_call_priceN (wx :: rest) S0 K t r kappa theta 0 rho v0 = none := by
  simp [heston_call_priceN, quadN, integrandN_sigma_zero]

/-- Claim C6 (amended): for `sigma = 0` the characteristic function
divides `kappa * theta` by `sigma ** 2 = 0`, so the integrand is
non-finite at every frequency and the computed price is non-finite (NaN)
whenever the integrator evaluates the integrand at all; it therefore does
not match a Black–Scholes price to within `1e-4`. -/
theorem sigma_zero_price_not_finite (S0 K t r kappa theta sigma rho v0 : ℝ)
    (nodes : List (ℝ × ℝ)) (hsigma : sigma = 0) (hnodes : nodes ≠ []) :
    heston_call_priceN nodes S0 K t r kappa theta sigma rho v0 = none := by
  subst hsigma
  cases nodes with
  | nil => exact absurd rfl hnodes
  | cons wx rest => exact priceN_sigma_zero S0 K t r kappa theta rho v0 wx rest

/-- Witness for the amended C6 at a concrete record with `sigma = 0`. -/
theorem sigma_zero_price_not_finite_witness :
    heston_call_priceN [(1, 1)] 1 1 1 0 2 0.3 0 (-0.5) 0.2 = none :=
  sigma_zero_price_not_finite 1 1 1 0 2 0.3 0 (-0.5) 0.2 [(1, 1)] rfl (by simp)

/-- Counterexample to C6 as stated: at the valid parameter record
`S0 = 1, K = 1, t = 1, r = 0, kappa = 1, theta = 0.1, sigma = 0, rho = 0,
v0 = 0.1` the computed price is non-finite (NaN), hence not within `1e-4`
of any Black–Scholes price. -/
theorem sigma_zero_bs_match_fails_cex :
    heston_call_priceN [(1, 1)] 1 1 1 0 1 0.1 0 0 0.1 = none :=
  priceN_sigma_zero 1 1 1 0 1 0.1 0 0.1 (1, 1) []

/-- Counterexample to C5 as stated: the integrator reports
non-convergence of its subdivision scheme, yet `heston_call_price`
returns the ordinary combined price — identical to the one returned when
the same estimate is reported as converged, and equal to the plain number
`0.5`.  The failure is not surfaced to the caller. -/
theorem nonconvergence_not_surfaced_cex :
    (quadNonconvergent
        (fun u => heston_integrand u 1 1 1 0.05 1.5 0.04 0.3 (-0.7) 0.04)
        0 100 100 (1e-8) (1e-8)).converged = false ∧
      heston_call_price quadNonconvergent 1 1 1 0.05 1.5 0.04 0.3 (-0.7) 0.04 =
        heston_call_price quadConvergent 1 1 1 0.05 1.5 0.04 0.3 (-0.7) 0.04 ∧
      heston_call_price quadNonconvergent 1 1 1 0.05 1.5 0.04 0.3 (-0.7) 0.04 = 0.5 := by
  refine ⟨rfl, rfl, ?_⟩
  simp [heston_call_price, quadNonconvergent]

/-- Claim C5 (amended): `heston_call_price` depends only on the estimate
the integrator returns; the convergence status has no influence on the
result, so exceeding the subdivision budget is not surfaced to the caller
(scipy signals it only through a warning, which the program ignores). -/
theorem call_price_ignores_convergence_flag (quad quad' : QuadRoutine)
    (S0 K t r kappa theta sigma rho v0 : ℝ)
    (h : ∀ f a b l ea er, (quad f a b l ea er).value = (quad' f a b l ea er).value) :
    heston_call_price quad S0 K t r kappa theta sigma rho v0 =
      heston_call_price quad' S0 K t r kappa theta sigma rho v0 := by
  simp only [heston_call_price]
  rw [h]

/-- Witness for the amended C5: a non-convergent and a convergent
integrator returning the same estimate produce the same price. -/
theorem call_price_ignores_convergence_flag_witness :
    heston_call_price quadNonconvergent 1 2 1 0 1 1 1 0 1 =
      heston_call_price quadConvergent 1 2 1 0 1 1 1 0 1 :=
  call_price_ignores_convergence_flag quadNonconvergent quadConvergent
    1 2 1 0 1 1 1 0 1 (fun _ _ _ _ _ _ => rfl)

/-- Claim C9: pricing is deterministic and stateless.  In a batch, two
calls with the identical parameter record `p`, in any position and
interleaved with arbitrary other calls, both return the standalone price
`priceOf quad p`; no call affects any other one. -/
theorem call_price_stateless (quad : QuadRoutine)
    (l1 l2 l3 : List MarketParams) (p : MarketParams) :
    batchPrices quad (l1 ++ p :: l2 ++ p :: l3) =
      batchPrices quad l1 ++ priceOf quad p ::
        (batchPrices quad l2 ++ priceOf quad p :: batchPrices quad l3) := by
  simp [batchPrices]

/-- Claim C3: the validity filter accepts a price iff it is a finite
float strictly between `0.0` and `0.66`; the boundaries and the
non-finite floats are rejected, and a sample is persisted by the `main`
loop iff it is accepted (the loop continues over the remaining samples). -/
theorem validity_filter_spec :
    (∀ p : PyFloat, accept p ↔ ∃ x : ℝ, p = PyFloat.fin x ∧ 0 < x ∧ x < 0.66) ∧
      ¬accept (PyFloat.fin 0) ∧ ¬accept (PyFloat.fin 0.66) ∧
      ¬accept PyFloat.nan ∧ ¬accept PyFloat.pinf ∧ ¬accept PyFloat.ninf ∧
      ∀ (α : Type) (samples : List (α × PyFloat)) (s : α × PyFloat),
        s ∈ mainResultData samples ↔ s ∈ samples ∧ accept s.2 := by
  refine ⟨?_, ?_, ?_, ?_, ?_, ?_, ?_⟩
  · intro p
    cases p <;> simp [accept, PyFloat.lt] <;> norm_num
  · norm_num [accept, PyFloat.lt]
  · norm_num [accept, PyFloat.lt]
  · simp [accept, PyFloat.lt]
  · simp [accept, PyFloat.lt]
  · simp [accept, PyFloat.lt]
  · intro α samples s
    simp [mainResultData, List.mem_filter]

/-- Claim C7: the sampler preserves the number of rows and affinely
rescales each unit-cube coordinate into its declared `[min, max)` range,
so no returned row contains an out-of-range value. -/
theorem lhs_samples_in_range (lhs : List (Fin 8 → ℝ))
    (h : ∀ row ∈ lhs, ∀ j, 0 ≤ row j ∧ row j < 1) :
    (generate_lhs_samples lhs).length = lhs.length ∧
      ∀ out ∈ generate_lhs_samples lhs, ∀ j, lhsMin j ≤ out j ∧ out j < lhsMax j := by
  constructor
  · simp [generate_lhs_samples]
  · intro out hout j
    simp only [generate_lhs_samples, List.mem_map] at hout
    obtain ⟨row, hrow, rfl⟩ := hout
    obtain ⟨h0, h1⟩ := h row hrow j
    have hlt : lhsMin j < lhsMax j := by fin_cases j <;> norm_num [lhsMin, lhsMax]
    have hnn : 0 ≤ row j * (lhsMax j - lhsMin j) :=
      mul_nonneg h0 (sub_pos.mpr hlt).le
    have hub : row j * (lhsMax j - lhsMin j) < 1 * (lhsMax j - lhsMin j) :=
      mul_lt_mul_of_pos_right h1 (sub_pos.mpr hlt)
    constructor
    · simpa using add_le_add_left hnn (lhsMin j)
    · show lhsMin j + row j * (lhsMax j - lhsMin j) < lhsMax j
      linarith

/-- Witness for C7: a single all-zero unit-cube row scales to the lower
endpoints, inside every range. -/
theorem lhs_samples_in_range_witness :
    (generate_lhs_samples [fun _ => (0 : ℝ)]).length = 1 ∧
      ∀ out ∈ generate_lhs_samples [fun _ => (0 : ℝ)], ∀ j,
        lhsMin j ≤ out j ∧ out j < lhsMax j := by
  have h := lhs_samples_in_range [fun _ => (0 : ℝ)]
    (by intro row hr j; simp only [List.mem_singleton] at hr; subst hr; norm_num)
  simpa using h

/-- Claim C8: every quadrature node, the affine transplant of a canonical
Gauss–Kronrod node `ξ ∈ (-1, 1)` into a subinterval `[a, b] ⊆ [0, 100]`,
is strictly positive (and strictly below 100): the integrand is never
evaluated at the endpoint `u = 0`. -/
theorem quad_nodes_interior (a b ξ : ℝ) (ha : 0 ≤ a) (hab : a < b)
    (hb : b ≤ 100) (hl : -1 < ξ) (hr : ξ < 1) :
    0 < quad_node a b ξ ∧ quad_node a b ξ < 100 := by
  unfold quad_node
  constructor
  · nlinarith [mul_pos (show (0 : ℝ) < (b - a) / 2 by linarith)
      (show (0 : ℝ) < 1 + ξ by linarith)]
  · nlinarith [mul_pos (show (0 : ℝ) < (b - a) / 2 by linarith)
      (show (0 : ℝ) < 1 - ξ by linarith)]

/-- Witness for C8 on the full interval `[0, 100]` at the central node. -/
theorem quad_nodes_interior_witness :
    0 < quad_node 0 100 0 ∧ quad_node 0 100 0 < 100 :=
  quad_nodes_interior 0 100 0 le_rfl (by norm_num) le_rfl (by norm_num) (by norm_num)

/-- The chunks of `pd.read_csv(..., chunksize=10000)` concatenate back to
the input. -/
lemma chunkList_join {α : Type} (l : List α) : (chunkList l).flatten = l := by
  induction l using chunkList.induct with
  | case1 => rw [chunkList]; rfl
  | case2 x xs ih =>
    rw [chunkList]
    simp only [List.flatten_cons, ih]
    exact List.take_append_drop 10000 (x :: xs)

/-- Filtering commutes with concatenation of the chunks. -/
lemma filter_join_chunks {α : Type} (p : α → Bool) (L : List (List α)) :
    (L.map (List.filter p)).flatten = (L.flatten).filter p := by
  induction L with
  | nil => rfl
  | cons c cs ih => simp only [List.map_cons, List.flatten_cons, List.filter_append, ih]

/-- The chunked loop accumulates the concatenation of the filtered chunks
and the sum of their lengths. -/
lemma filterScript_foldl {α : Type} (chunks : List (List (CsvRow α)))
    (acc : List (CsvRow α) × ℕ) :
    (chunks.foldl
      (fun acc chunk =>
        let fc := filtered_chunk chunk
        (acc.1 ++ fc, acc.2 + fc.length)) acc) =
      (acc.1 ++ (chunks.map filtered_chunk).flatten,
        acc.2 + ((chunks.map filtered_chunk).flatten).length) := by
  induction chunks generalizing acc with
  | nil => simp
  | cons c cs ih => simp [ih, List.append_assoc, Nat.add_assoc]

/-- The whole chunked script equals one pass of the row filter. -/
lemma filterScript_eq {α : Type} (input : List (CsvRow α)) :
    filterScript input = (input.filter rowKeep, (input.filter rowKeep).length) := by
  unfold filterScript
  rw [filterScript_foldl]
  have hmap : List.map filtered_chunk (chunkList input) =
      List.map (List.filter rowKeep) (chunkList input) := by
    simp [filtered_chunk]
  rw [hmap, filter_join_chunks, chunkList_join]
  simp

/-- Claim C10: the chunked filter writes exactly the input rows satisfying
`0.6 < moneyness < 1.4` and `0.05 < initial_variance < 0.5`, unchanged and
in their original relative order; every written row satisfies the strict
bounds, every qualifying input row is written, and the reported total
equals the number of rows written. -/
theorem filter_script_spec {α : Type} (input : List (CsvRow α)) :
    (filterScript input).1 = input.filter rowKeep ∧
      (filterScript input).2 = ((filterScript input).1).length ∧
      (∀ r ∈ (filterScript input).1, rowPred r) ∧
      ∀ r ∈ input, rowPred r → r ∈ (filterScript input).1 := by
  rw [filterScript_eq]
  refine ⟨rfl, rfl, ?_, ?_⟩
  · intro r hr
    exact of_decide_eq_true (List.mem_filter.mp hr).2
  · intro r hr hp
    exact List.mem_filter.mpr ⟨hr, decide_eq_true hp⟩

/-- Witness for C10: an in-bounds row of a singleton input is written. -/
theorem filter_script_spec_witness :
    (⟨1, 0.1, 0⟩ : CsvRow ℕ) ∈ (filterScript [⟨1, 0.1, 0⟩]).1 :=
  (filter_script_spec [⟨1, 0.1, 0⟩]).2.2.2 ⟨1, 0.1, 0⟩ (by simp)
    (by norm_num [rowPred])
